import Mathlib

/-
Verification of the gotomarkdown converter.

The program converts a commented Go source file into a Markdown document:
comment lines become prose (with comment delimiters stripped), code lines
are wrapped in code fences, and media references found in comments
(Markdown image tags and custom HYPE animation tags) are collected into a
set of paths.

Strings are modelled as lists of characters (`Str`).  The Go regular
expressions used by the program are small and are embedded directly:
the three anchored comment patterns become explicit prefix/suffix tests,
and the two submatch-extracting patterns (image tag and hype tag) are
embedded through a small leftmost-first backtracking matcher over
character-class items, mirroring Go's Perl-style match semantics.
File reads performed by the snippet loader are modelled by a function
`fs : Str -> Option Str` from paths to file contents.

The classifier closure `isInComment` of the Go program is a package-level
value; its captured flag is modelled explicitly: `commentFinderStep`
takes the flag and returns the classification together with the new flag,
and `convertFrom` takes the flag the conversion starts from and returns
the flag it ends with.
-/

set_option autoImplicit false

namespace GoMD

abbrev Str := List Char

def litStr (s : String) : Str := s.toList

/-- The character class of the Go regexp escape for whitespace: space,
tab, newline, form feed, carriage return. -/
def isGoSpace (c : Char) : Bool :=
  c == ' ' || c == '\t' || c == '\n' || c == Char.ofNat 12 || c == '\r'

/-- Carriage-return removal, from `strings.Replace(in, "\r", "", -1)`. -/
def stripCR (s : Str) : Str := s.filter (fun c => !(c == '\r'))

/-- Splitting at newlines, from `strings.Split(in, "\n")`: first line and
the remaining lines. -/
def splitLinesNE : Str → Str × List Str
  | [] => ([], [])
  | c :: s =>
    let r := splitLinesNE s
    if c = '\n' then ([], r.1 :: r.2) else (c :: r.1, r.2)

def splitLines (s : Str) : List Str :=
  (splitLinesNE s).1 :: (splitLinesNE s).2

def rdropWhileB (p : Char → Bool) (l : Str) : Str :=
  (l.reverse.dropWhile p).reverse

/-- Both-ends trimming over a character class, from `strings.Trim`. -/
def trimCutset (p : Char → Bool) (l : Str) : Str :=
  rdropWhileB p (l.dropWhile p)

/-- Substring containment, from `strings.Index(s, pat) >= 0`. -/
def containsSub (pat : Str) : Str → Bool
  | [] => pat.isEmpty
  | c :: s => pat.isPrefixOf (c :: s) || containsSub pat s

/-- One item of an embedded regular expression: a single character from a
class, a greedy star over a class, or a greedy plus over a class. -/
inductive RItem where
  | one : (Char → Bool) → RItem
  | star : (Char → Bool) → RItem
  | plus : (Char → Bool) → RItem

/-- Remainders after a greedy `p*`, longest consumed first. -/
def greedyRests (p : Char → Bool) : Str → List Str
  | [] => [[]]
  | c :: s => if p c then greedyRests p s ++ [c :: s] else [c :: s]

/-- Remainders after a greedy `p+`, longest consumed first. -/
def greedyRests1 (p : Char → Bool) : Str → List Str
  | [] => []
  | c :: s => if p c then greedyRests p s else []

/-- All remainders left by a sequence of items, in backtracking preference
order (greedy operators try the longest consumption first). -/
def matchSeq : List RItem → Str → List Str
  | [], s => [s]
  | RItem.one _ :: _, [] => []
  | RItem.one p :: items, c :: s => if p c then matchSeq items s else []
  | RItem.star p :: items, s => (greedyRests p s).flatMap (fun r => matchSeq items r)
  | RItem.plus p :: items, s => (greedyRests1 p s).flatMap (fun r => matchSeq items r)

/-- Splits `(consumed, remainder)` of a greedy `p+`, longest first. -/
def greedySplitsAux (p : Char → Bool) : Str → List (Str × Str)
  | [] => [([], [])]
  | c :: s =>
    if p c then (greedySplitsAux p s).map (fun pr => (c :: pr.1, pr.2)) ++ [([], c :: s)]
    else [([], c :: s)]

def greedySplits1 (p : Char → Bool) : Str → List (Str × Str)
  | [] => []
  | c :: s => if p c then (greedySplitsAux p s).map (fun pr => (c :: pr.1, pr.2)) else []

/-- A pattern with one mandatory capture group: items before the group,
the character class of the group (a greedy plus), and items after it. -/
structure CPattern where
  pre : List RItem
  grp : Char → Bool
  post : List RItem

/-- Try to match the pattern at the start of `s`; on success return the
number of characters consumed and the text captured by the group,
exploring alternatives in backtracking preference order. -/
def tryAt (pat : CPattern) (s : Str) : Option (Nat × Str) :=
  (matchSeq pat.pre s).findSome? (fun s1 =>
    (greedySplits1 pat.grp s1).findSome? (fun cs =>
      match matchSeq pat.post cs.2 with
      | [] => none
      | r :: _ => some (s.length - r.length, cs.1)))

/-- Leftmost match: scan start positions left to right, as Go's
`FindStringSubmatch` does. -/
def findSubmatch (pat : CPattern) : Str → Option (Str × Str)
  | [] =>
    match tryAt pat [] with
    | some nc => some (([] : Str).take nc.1, nc.2)
    | none => none
  | c :: s =>
    match tryAt pat (c :: s) with
    | some nc => some ((c :: s).take nc.1, nc.2)
    | none => findSubmatch pat s

/-- Result in the shape of Go's `FindStringSubmatch`: empty on no match,
otherwise the full match followed by the captured group. -/
def findStringSubmatch (pat : CPattern) (s : Str) : List Str :=
  match findSubmatch pat s with
  | none => []
  | some wc => [wc.1, wc.2]

def backtick : Char := Char.ofNat 96

/-- The image-tag pattern from the source. -/
def imagePat : CPattern where
  pre := [RItem.one (fun c => !(c == backtick)), RItem.one (fun c => c == '!'),
          RItem.one (fun c => c == '['), RItem.plus (fun c => !(c == ']')),
          RItem.one (fun c => c == ']'), RItem.one (fun c => c == '('),
          RItem.star (fun c => c == ' ')]
  grp := fun c => !(c == '"') && !(c == ')')
  post := [RItem.star (fun c => c == ' '), RItem.one (fun c => c == '"' || c == ')')]

/-- The hype-tag pattern from the source. -/
def hypePat : CPattern where
  pre := [RItem.one (fun c => !(c == backtick)), RItem.one (fun c => c == 'H'),
          RItem.one (fun c => c == 'Y'), RItem.one (fun c => c == 'P'),
          RItem.one (fun c => c == 'E'), RItem.one (fun c => c == '['),
          RItem.plus (fun c => !(c == ']')), RItem.one (fun c => c == ']'),
          RItem.one (fun c => c == '('), RItem.star (fun c => c == ' ')]
  grp := fun c => !(c == ')')
  post := [RItem.star (fun c => c == ' '), RItem.one (fun c => c == ')')]

/-- Match of the single-line comment pattern. -/
def matchesComment (l : Str) : Bool :=
  (litStr "//").isPrefixOf (l.dropWhile isGoSpace)

/-- Match of the block-comment opener pattern. -/
def matchesCommentStart (l : Str) : Bool :=
  (litStr "/*").isPrefixOf (l.dropWhile isGoSpace)

/-- Match of the block-comment closer pattern: the line, right-trimmed of
whitespace, ends in the closing delimiter. -/
def matchesCommentEnd (l : Str) : Bool :=
  (litStr "/*").isPrefixOf (l.reverse.dropWhile isGoSpace)

/-- From `isDirective`: match of the directive pattern (anchored, no
leading whitespace tolerated). -/
def isDirective (l : Str) : Bool :=
  (litStr "//go:").isPrefixOf l

/-- One call of the function returned by `commentFinder`: the captured
`commentSectionInProgress` flag is passed in and the updated flag is
returned alongside the classification. -/
def commentFinderStep (st : Bool) (line : Str) : Bool × Bool :=
  if matchesComment line then (true, st)
  else if matchesCommentStart line then (true, true)
  else if matchesCommentEnd line then (true, false)
  else if st then (true, st)
  else (false, st)

/-- Whether the closer alternative of `allCommentDelims` matches starting
exactly at the head of `l` (it must then run to the end of the line). -/
def isEndMatch (l : Str) : Bool :=
  match l with
  | c1 :: c2 :: rest =>
    (c1 == '*' && c2 == '/' && rest.all isGoSpace)
    || (match rest with
        | c3 :: rest2 => isGoSpace c1 && c2 == '*' && c3 == '/' && rest2.all isGoSpace
        | [] => false)
  | _ => false

/-- Remove the leftmost closer-delimiter match (which necessarily runs to
the end of the line), scanning left to right. -/
def stripEnd : Str → Str
  | [] => []
  | c :: s => if isEndMatch (c :: s) then [] else c :: stripEnd s

/-- Consume the optional single whitespace character after an opening
comment delimiter. -/
def dropOneSpace : Str → Str
  | [] => []
  | c :: s => if isGoSpace c then s else c :: s

/-- `allCommentDelims.ReplaceAllString(line, "")`: an anchored opener
alternative can only match at the start of the line, the closer
alternative runs to the end of the line, and replacement continues after
the end of the previous match. -/
def stripDelims (l : Str) : Str :=
  let r := l.dropWhile isGoSpace
  if (litStr "//").isPrefixOf r then stripEnd (dropOneSpace (r.drop 2))
  else if (litStr "/*").isPrefixOf r then stripEnd (dropOneSpace (r.drop 2))
  else stripEnd l

def startMarker : Str := litStr "<!-- copy these lines to your document: -->"

def endMarker : Str := litStr "<!-- end copy -->"

def isTab (c : Char) : Bool := c == '\t'

/-- The scanning loop of `getHTMLSnippet` over the lines of the file:
the accumulated snippet text produced from the remaining lines. -/
def snippetLoop : Bool → List Str → Str
  | _, [] => []
  | inS, l :: ls =>
    if containsSub startMarker l then snippetLoop true ls
    else if containsSub endMarker l then
      if inS then [] else snippetLoop false ls
    else if inS then trimCutset isTab l ++ ['\n'] ++ snippetLoop inS ls
    else snippetLoop inS ls

/-- `getHTMLSnippet`: read the file at `path`, scan it for the marked
region, and return the snippet followed by one extra newline. -/
def getHTMLSnippet (fs : Str → Option Str) (path : Str) : Except Str Str :=
  match fs path with
  | none => Except.error (litStr "Unable to open Hype file " ++ path)
  | some content =>
    Except.ok (snippetLoop false (splitLines (stripCR content)) ++ ['\n'])

/-- Scanning loop of `strings.Replace(s, pat, rep, -1)` for a non-empty
pattern, with a fuel argument for structural termination: every step
consumes at least one character of `s`, so fuel `s.length` never runs
out and the exhaustion branch is unreachable. -/
def replaceAllAux (pat rep : Str) : Nat → Str → Str
  | _, [] => []
  | 0, _ :: _ => []
  | fuel + 1, c :: s =>
    if pat.isPrefixOf (c :: s) && !pat.isEmpty then
      rep ++ replaceAllAux pat rep fuel (s.drop (pat.length - 1))
    else c :: replaceAllAux pat rep fuel s

/-- `strings.Replace(s, pat, rep, -1)` for a non-empty pattern. -/
def replaceAll (pat rep : Str) (s : Str) : Str :=
  replaceAllAux pat rep s.length s

def spaceTabCut (c : Char) : Bool := c == ' ' || c == '\t'

/-- `extractMediaPath`: search the line for an image tag, returning the
trimmed captured path, the empty string when no tag is present, or an
error when a match yields no captured path. -/
def extractMediaPath (line : Str) : Except Str Str :=
  let ms := findStringSubmatch imagePat line
  if ms.length = 0 then Except.ok []
  else if ms.length = 1 then
    Except.error (litStr "Error: Found image tag but no valid path, in line:" ++ ['\n'] ++ line)
  else Except.ok (trimCutset spaceTabCut (ms.getD 1 []))

/-- `replaceHypeTag`: search the line for a hype tag; on a match load the
snippet for the captured path and rewrite the path extension to the
hyperesources directory convention. -/
def replaceHypeTag (fs : Str → Option Str) (line : Str) : Except Str (Str × Str) :=
  let ms := findStringSubmatch hypePat line
  if ms.length = 0 then Except.ok (line, [])
  else if ms.length = 1 then
    Except.error (litStr "Error: Found Hype tag but no valid path, in line:" ++ ['\n'] ++ line)
  else
    match getHTMLSnippet fs (ms.getD 1 []) with
    | Except.error e => Except.error e
    | Except.ok out =>
      Except.ok (out, replaceAll (litStr ".html") (litStr ".hyperesources") (ms.getD 1 []))

/-- The three values of the `lastLine` variable of `convert`. -/
inductive Mode where
  | neither
  | comment
  | code
deriving DecidableEq

/-- The per-line state of one conversion: the classifier's captured flag,
the segment mode, the output accumulated so far, and the media set
(modelled as a duplicate-free list in insertion order). -/
structure CState where
  cls : Bool
  lastLine : Mode
  out : Str
  media : List Str
deriving DecidableEq

/-- Insertion into the media set (`media[path] = struct{}{}`). -/
def insertMedia (m : List Str) (p : Str) : List Str :=
  if p ∈ m then m else m ++ [p]

def closeFenceMid : Str := litStr "```\n\n"

def openFence : Str := litStr "\n```go\n"

def closeFenceEnd : Str := litStr "\n```\n"

/-- One iteration of the loop body of `convert` on a single line. -/
def step (fs : Str → Option Str) (st : CState) (line : Str) : Except Str CState :=
  if isDirective line then Except.ok st
  else
    let ic := commentFinderStep st.cls line
    if ic.1 then
      let out1 := if st.lastLine = Mode.code then st.out ++ closeFenceMid else st.out
      match extractMediaPath line with
      | Except.error e =>
        Except.error (litStr "Unable to extract media path from line " ++ line ++ ['\n'] ++ e)
      | Except.ok p =>
        let m1 := if p ≠ [] then insertMedia st.media p else st.media
        match replaceHypeTag fs line with
        | Except.error e =>
          Except.error (litStr "Failed generating Hype tag from line " ++ line ++ ['\n'] ++ e)
        | Except.ok rp =>
          if rp.1 ≠ [] ∧ rp.2 ≠ [] then
            Except.ok { cls := ic.2, lastLine := Mode.comment,
                        out := out1 ++ rp.1, media := insertMedia m1 rp.2 }
          else
            Except.ok { cls := ic.2, lastLine := Mode.comment,
                        out := out1 ++ stripDelims line ++ ['\n'], media := m1 }
    else
      if st.lastLine = Mode.comment ∧ line ≠ [] then
        Except.ok { cls := ic.2, lastLine := Mode.code,
                    out := st.out ++ openFence ++ line ++ ['\n'], media := st.media }
      else
        Except.ok { cls := ic.2, lastLine := st.lastLine,
                    out := st.out ++ line ++ ['\n'], media := st.media }

/-- The loop of `convert` over all lines. -/
def runLines (fs : Str → Option Str) : CState → List Str → Except Str CState
  | st, [] => Except.ok st
  | st, l :: ls =>
    match step fs st l with
    | Except.error e => Except.error e
    | Except.ok st2 => runLines fs st2 ls

/-- `convert`, with the classifier's package-level flag made explicit:
`cls0` is the flag value when the conversion starts, and the returned
`Bool` is its value when the conversion ends. -/
def convertFrom (fs : Str → Option Str) (cls0 : Bool) (input : Str) :
    Except Str (Str × List Str × Bool) :=
  match runLines fs { cls := cls0, lastLine := Mode.neither, out := [], media := [] }
      (splitLines (stripCR input)) with
  | Except.error e => Except.error e
  | Except.ok st =>
    Except.ok (st.out ++ (if st.lastLine = Mode.code then closeFenceEnd else []),
               st.media, st.cls)

/-- `convert` run with the flag value the program starts with. -/
def convert (fs : Str → Option Str) (input : Str) : Except Str (Str × List Str) :=
  match convertFrom fs false input with
  | Except.error e => Except.error e
  | Except.ok r => Except.ok (r.1, r.2.1)

/-- The empty file system: every read fails. -/
def fsNone : Str → Option Str := fun _ => none

/-- A file system holding one hype export file whose name carries a
trailing space. -/
def fsP : Str → Option Str :=
  fun s => if s = litStr "p " then some (litStr "x") else none

/-- A hype export file with one snippet line that carries a leading and a
trailing tab. -/
def contentC6 : Str :=
  litStr "<!-- copy these lines to your document: -->\n\ta\t\n<!-- end copy -->"

/-- A file system holding `contentC6` under the name `f`. -/
def fsC6 : Str → Option Str :=
  fun s => if s = litStr "f" then some contentC6 else none

/-- Right-only trimming of tab characters, following the specification's
words (the code trims both ends). -/
def rdropTabs (l : Str) : Str := rdropWhileB isTab l

/-- A line at which the snippet scan of `getHTMLSnippet` stops: it holds
the end marker and not the start marker (a line holding both is consumed
by the start-marker branch first and does not stop the scan). -/
def stopLine (l : Str) : Bool :=
  containsSub endMarker l && !containsSub startMarker l

/-- The lines after the first line holding the start marker; empty when
no line holds it. -/
def dropPastStart : List Str → List Str
  | [] => []
  | l :: ls => if containsSub startMarker l then ls else dropPastStart ls

/-- The snippet described by the specification (with trimming amended to
both ends): the lines after the first start-marker line, up to the first
stopping line, with remaining start-marker lines excluded, each trimmed
of tabs and followed by a newline, and one extra newline at the end. -/
def snippetSpec (content : Str) : Str :=
  ((((dropPastStart (splitLines (stripCR content))).takeWhile
      (fun l => !stopLine l)).filter
      (fun l => !containsSub startMarker l)).map
      (fun l => trimCutset isTab l ++ ['\n'])).flatten ++ ['\n']

/-- The initial state of one conversion, before any line is processed. -/
def initState (cls0 : Bool) : CState :=
  { cls := cls0, lastLine := Mode.neither, out := [], media := [] }

/-! Helper lemmas -/

theorem step_directive (fs : Str → Option Str) (st : CState) (l : Str)
    (h : isDirective l = true) : step fs st l = Except.ok st := by
  simp [step, h]

theorem commentStart_not_comment (l : Str) (h : matchesCommentStart l = true) :
    matchesComment l = false := by
  unfold matchesCommentStart at h
  unfold matchesComment
  obtain ⟨t, ht⟩ := List.isPrefixOf_iff_prefix.mp h
  rw [← ht]
  rfl

theorem splitLinesNE_join (s : Str) :
    (splitLinesNE s).1 ++ '\n' :: ((splitLinesNE s).2.map (fun l => l ++ ['\n'])).flatten
      = s ++ ['\n'] := by
  induction s with
  | nil => rfl
  | cons c s ih =>
    by_cases hc : c = '\n'
    · subst hc
      show ([] : Str) ++ '\n' ::
          ((((splitLinesNE s).1 :: (splitLinesNE s).2).map (fun l => l ++ ['\n'])).flatten)
        = ('\n' :: s) ++ ['\n']
      simp only [List.nil_append, List.map_cons, List.flatten_cons, List.cons_append]
      rw [List.append_assoc]
      rw [show (['\n'] : Str) ++ (((splitLinesNE s).2.map (fun l => l ++ ['\n'])).flatten)
          = '\n' :: (((splitLinesNE s).2.map (fun l => l ++ ['\n'])).flatten) from rfl]
      rw [ih]
    · simp only [splitLinesNE, if_neg hc, List.cons_append]
      rw [ih]

theorem join_map_splitLines (s : Str) :
    ((splitLines s).map (fun l => l ++ ['\n'])).flatten = s ++ ['\n'] := by
  have h := splitLinesNE_join s
  simp only [splitLines, List.map_cons, List.flatten_cons]
  rw [← h, List.append_assoc]
  simp

theorem runLines_all_code (fs : Str → Option Str) (ls : List Str)
    (h : ∀ l ∈ ls, isDirective l = false ∧ commentFinderStep false l = (false, false)) :
    ∀ out media, runLines fs ⟨false, Mode.neither, out, media⟩ ls =
      Except.ok ⟨false, Mode.neither, out ++ (ls.map (fun l => l ++ ['\n'])).flatten, media⟩ := by
  induction ls with
  | nil =>
    intro out media
    simp [runLines]
  | cons l ls ih =>
    intro out media
    have hl := h l (List.mem_cons_self l ls)
    have hstep : step fs ⟨false, Mode.neither, out, media⟩ l =
        Except.ok ⟨false, Mode.neither, out ++ l ++ ['\n'], media⟩ := by
      simp only [step, hl.1, Bool.false_eq_true, if_false]
      rw [hl.2]
      simp
    simp only [runLines, hstep]
    rw [ih (fun x hx => h x (List.mem_cons_of_mem l hx))]
    simp [List.append_assoc]

theorem step_cls_cases (fs : Str → Option Str) (st : CState) (l : Str) (st2 : CState)
    (hok : step fs st l = Except.ok st2) :
    st2.cls = st.cls ∨ st2.cls = (commentFinderStep st.cls l).2 := by
  simp only [step] at hok
  split at hok
  · simp only [Except.ok.injEq] at hok
    subst hok
    exact Or.inl rfl
  · split at hok
    · split at hok
      · simp at hok
      · split at hok
        · simp at hok
        · split at hok
          · simp only [Except.ok.injEq] at hok
            subst hok
            exact Or.inr rfl
          · simp only [Except.ok.injEq] at hok
            subst hok
            exact Or.inr rfl
    · split at hok
      · simp only [Except.ok.injEq] at hok
        subst hok
        exact Or.inr rfl
      · simp only [Except.ok.injEq] at hok
        subst hok
        exact Or.inr rfl

theorem commentFinderStep_snd_false (st : Bool) (l : Str) (hst : st = false)
    (hl : matchesCommentStart l = false) : (commentFinderStep st l).2 = false := by
  subst hst
  cases h1 : matchesComment l <;> cases h2 : matchesCommentEnd l <;>
    simp [commentFinderStep, hl, h1, h2]

theorem runLines_cls_false (fs : Str → Option Str) (ls : List Str)
    (h : ∀ l ∈ ls, matchesCommentStart l = false) :
    ∀ st : CState, ∀ st2 : CState, st.cls = false →
      runLines fs st ls = Except.ok st2 → st2.cls = false := by
  induction ls with
  | nil =>
    intro st st2 hcls hrun
    simp only [runLines, Except.ok.injEq] at hrun
    subst hrun
    exact hcls
  | cons l ls ih =>
    intro st st2 hcls hrun
    unfold runLines at hrun
    cases hs : step fs st l with
    | error e =>
      rw [hs] at hrun
      simp at hrun
    | ok stm =>
      rw [hs] at hrun
      have hm : stm.cls = false := by
        rcases step_cls_cases fs st l stm hs with h1 | h1
        · rw [h1]
          exact hcls
        · rw [h1]
          exact commentFinderStep_snd_false st.cls l hcls (h l (List.mem_cons_self l ls))
      exact ih (fun x hx => h x (List.mem_cons_of_mem l hx)) stm st2 hm hrun

theorem insertMedia_nodup (m : List Str) (p : Str) (h : m.Nodup) :
    (insertMedia m p).Nodup := by
  unfold insertMedia
  split
  · exact h
  · rename_i hp
    rw [List.nodup_append]
    refine ⟨h, List.nodup_singleton p, ?_⟩
    intro a ham hap
    rw [List.mem_singleton] at hap
    subst hap
    exact hp ham

theorem insertMedia_mem (m : List Str) (p q : Str) (h : q ∈ insertMedia m p) :
    q ∈ m ∨ q = p := by
  unfold insertMedia at h
  split at h
  · exact Or.inl h
  · rcases List.mem_append.mp h with h1 | h1
    · exact Or.inl h1
    · exact Or.inr (List.mem_singleton.mp h1)

theorem insertMedia_inv (m : List Str) (p : Str) (h1 : m.Nodup)
    (h2 : ∀ x ∈ m, x ≠ []) (hp : p ≠ []) :
    (insertMedia m p).Nodup ∧ ∀ x ∈ insertMedia m p, x ≠ [] :=
  ⟨insertMedia_nodup m p h1,
    fun x hx => (insertMedia_mem m p x hx).elim (h2 x) (fun e => e ▸ hp)⟩

theorem step_media_cases (fs : Str → Option Str) (st : CState) (l : Str) (st2 : CState)
    (hok : step fs st l = Except.ok st2) :
    st2.media = st.media ∨
    (∃ p, p ≠ [] ∧ st2.media = insertMedia st.media p) ∨
    (∃ p q, p ≠ [] ∧ q ≠ [] ∧ st2.media = insertMedia (insertMedia st.media p) q) := by
  by_cases hd : isDirective l = true
  · rw [step_directive fs st l hd] at hok
    simp only [Except.ok.injEq] at hok
    subst hok
    exact Or.inl rfl
  · have hd2 : isDirective l = false := by
      cases h : isDirective l
      · rfl
      · exact absurd h hd
    cases hic : (commentFinderStep st.cls l).1 with
    | false =>
      simp only [step, hd2, hic, Bool.false_eq_true, if_false] at hok
      split at hok <;>
        (simp only [Except.ok.injEq] at hok; subst hok; exact Or.inl rfl)
    | true =>
      cases hext : extractMediaPath l with
      | error e =>
        simp [step, hd2, hic, hext] at hok
      | ok p =>
        cases hhype : replaceHypeTag fs l with
        | error e =>
          simp [step, hd2, hic, hext, hhype] at hok
        | ok rp =>
          simp only [step, hd2, hic, hext, hhype, Bool.false_eq_true, if_false,
            if_true] at hok
          split at hok
          · rename_i hrp
            simp only [Except.ok.injEq] at hok
            subst hok
            by_cases hp : p ≠ []
            · refine Or.inr (Or.inr ⟨p, rp.2, hp, hrp.2, ?_⟩)
              simp [hp]
            · refine Or.inr (Or.inl ⟨rp.2, hrp.2, ?_⟩)
              simp [hp]
          · simp only [Except.ok.injEq] at hok
            subst hok
            by_cases hp : p ≠ []
            · refine Or.inr (Or.inl ⟨p, hp, ?_⟩)
              simp [hp]
            · refine Or.inl ?_
              simp [hp]

theorem step_media_inv (fs : Str → Option Str) (st : CState) (l : Str) (st2 : CState)
    (hok : step fs st l = Except.ok st2) (h1 : st.media.Nodup)
    (h2 : ∀ p ∈ st.media, p ≠ []) :
    st2.media.Nodup ∧ ∀ p ∈ st2.media, p ≠ [] := by
  rcases step_media_cases fs st l st2 hok with hm | ⟨p, hp, hm⟩ | ⟨p, q, hp, hq, hm⟩
  · rw [hm]
    exact ⟨h1, h2⟩
  · rw [hm]
    exact insertMedia_inv st.media p h1 h2 hp
  · rw [hm]
    have h3 := insertMedia_inv st.media p h1 h2 hp
    exact insertMedia_inv (insertMedia st.media p) q h3.1 h3.2 hq

theorem runLines_media_inv (fs : Str → Option Str) (ls : List Str) :
    ∀ st : CState, ∀ st2 : CState, runLines fs st ls = Except.ok st2 →
      st.media.Nodup → (∀ p ∈ st.media, p ≠ []) →
      st2.media.Nodup ∧ ∀ p ∈ st2.media, p ≠ [] := by
  induction ls with
  | nil =>
    intro st st2 hrun h1 h2
    simp only [runLines, Except.ok.injEq] at hrun
    subst hrun
    exact ⟨h1, h2⟩
  | cons l ls ih =>
    intro st st2 hrun h1 h2
    unfold runLines at hrun
    cases hs : step fs st l with
    | error e =>
      rw [hs] at hrun
      simp at hrun
    | ok stm =>
      rw [hs] at hrun
      have hm := step_media_inv fs st l stm hs h1 h2
      exact ih stm st2 hrun hm.1 hm.2

theorem snippetLoop_true (ls : List Str) :
    snippetLoop true ls =
      (((ls.takeWhile (fun l => !stopLine l)).filter
        (fun l => !containsSub startMarker l)).map
        (fun l => trimCutset isTab l ++ ['\n'])).flatten := by
  induction ls with
  | nil => rfl
  | cons l ls ih =>
    cases h1 : containsSub startMarker l with
    | true =>
      simp [snippetLoop, h1, stopLine, List.takeWhile_cons, List.filter_cons, ih]
    | false =>
      cases h2 : containsSub endMarker l with
      | true =>
        simp [snippetLoop, h1, h2, stopLine, List.takeWhile_cons]
      | false =>
        simp [snippetLoop, h1, h2, stopLine, List.takeWhile_cons, List.filter_cons, ih]

theorem snippetLoop_false (ls : List Str) :
    snippetLoop false ls = snippetLoop true (dropPastStart ls) := by
  induction ls with
  | nil => rfl
  | cons l ls ih =>
    cases h1 : containsSub startMarker l with
    | true => simp [snippetLoop, dropPastStart, h1]
    | false =>
      cases h2 : containsSub endMarker l with
      | true => simp [snippetLoop, dropPastStart, h1, h2, ih]
      | false => simp [snippetLoop, dropPastStart, h1, h2, ih]

theorem splitLinesNE_no_nl (s : Str) (h : ∀ c ∈ s, c ≠ '\n') :
    splitLinesNE s = (s, []) := by
  induction s with
  | nil => rfl
  | cons c s ih =>
    simp only [splitLinesNE, if_neg (h c (List.mem_cons_self c s)),
      ih (fun x hx => h x (List.mem_cons_of_mem c hx))]

theorem splitLines_no_nl (s : Str) (h : ∀ c ∈ s, c ≠ '\n') : splitLines s = [s] := by
  simp [splitLines, splitLinesNE_no_nl s h]

theorem stripCR_no_cr (s : Str) (h : ∀ c ∈ s, c ≠ '\r') : stripCR s = s := by
  induction s with
  | nil => rfl
  | cons c s ih =>
    have hc : (!(c == '\r')) = true := by
      simp [h c (List.mem_cons_self c s)]
    simp only [stripCR, List.filter_cons, hc, if_true]
    rw [show List.filter (fun c => !(c == '\r')) s = stripCR s from rfl]
    rw [ih (fun x hx => h x (List.mem_cons_of_mem c hx))]

theorem matchSeq_second_none (p0 : Char → Bool) (ch : Char) (items : List RItem)
    (s : Str) (h : ∀ c ∈ s, (c == ch) = false) :
    matchSeq (RItem.one p0 :: RItem.one (fun c => c == ch) :: items) s = [] := by
  cases s with
  | nil => rfl
  | cons c s =>
    simp only [matchSeq]
    by_cases hp : p0 c = true
    · rw [if_pos hp]
      cases s with
      | nil => rfl
      | cons c2 s2 =>
        simp only [matchSeq, h c2 (List.mem_cons_of_mem c (List.mem_cons_self c2 s2)),
          Bool.false_eq_true, if_false]
    · rw [if_neg hp]

theorem findSubmatch_image_none (s : Str) (h : ∀ c ∈ s, (c == '!') = false) :
    findSubmatch imagePat s = none := by
  induction s with
  | nil => rfl
  | cons c s ih =>
    have h1 : matchSeq imagePat.pre (c :: s) = [] :=
      matchSeq_second_none (fun x => !(x == backtick)) '!' _ (c :: s) h
    have h2 : tryAt imagePat (c :: s) = none := by
      unfold tryAt
      rw [h1]
      rfl
    simp only [findSubmatch, h2]
    exact ih (fun x hx => h x (List.mem_cons_of_mem c hx))

theorem findSubmatch_hype_none (s : Str) (h : ∀ c ∈ s, (c == 'H') = false) :
    findSubmatch hypePat s = none := by
  induction s with
  | nil => rfl
  | cons c s ih =>
    have h1 : matchSeq hypePat.pre (c :: s) = [] :=
      matchSeq_second_none (fun x => !(x == backtick)) 'H' _ (c :: s) h
    have h2 : tryAt hypePat (c :: s) = none := by
      unfold tryAt
      rw [h1]
      rfl
    simp only [findSubmatch, h2]
    exact ih (fun x hx => h x (List.mem_cons_of_mem c hx))

theorem isEndMatch_no_star (l : Str) (h : ∀ c ∈ l, (c == '*') = false) :
    isEndMatch l = false := by
  rcases l with _ | ⟨c1, _ | ⟨c2, rest⟩⟩
  · rfl
  · rfl
  · have h1 := h c1 (List.mem_cons_self c1 _)
    have h2 := h c2 (List.mem_cons_of_mem c1 (List.mem_cons_self c2 _))
    cases rest with
    | nil => simp [isEndMatch, h1, h2]
    | cons c3 r2 => simp [isEndMatch, h1, h2]

theorem stripEnd_no_star (l : Str) (h : ∀ c ∈ l, (c == '*') = false) :
    stripEnd l = l := by
  induction l with
  | nil => rfl
  | cons c s ih =>
    simp only [stripEnd, isEndMatch_no_star (c :: s) h, Bool.false_eq_true, if_false]
    rw [ih (fun x hx => h x (List.mem_cons_of_mem c hx))]

/-! Claim theorems -/

/-- C5 (confirmed): a line that matches both the block-comment opener and
the block-comment closer pattern is classified as a comment line via the
opener rule, leaving the in-block-comment flag set, whatever its previous
value. -/
theorem c5_theorem (st : Bool) (l : Str)
    (h1 : matchesCommentStart l = true) (h2 : matchesCommentEnd l = true) :
    commentFinderStep st l = (true, true) := by
  simp [commentFinderStep, commentStart_not_comment l h1, h1]

/-- C5 witness: the one-line block comment from the specification. -/
theorem c5_witness :
    matchesCommentStart (litStr "/* x */") = true ∧
    matchesCommentEnd (litStr "/* x */") = true ∧
    commentFinderStep false (litStr "/* x */") = (true, true) :=
  ⟨rfl, rfl, c5_theorem false (litStr "/* x */") rfl rfl⟩

/-- C7 (confirmed): an empty line processed while the previous mode is
InComment adds only a newline to the output and leaves the mode (and the
rest of the state) unchanged: no opening code fence is emitted and the
mode does not switch to InCode. -/
theorem c7_theorem (fs : Str → Option Str) (st : CState)
    (h : st.lastLine = Mode.comment) :
    step fs st [] = Except.ok { st with out := st.out ++ ['\n'] } := by
  obtain ⟨cls, last, out, media⟩ := st
  cases h
  cases cls
  · have e : step fs ⟨false, Mode.comment, out, media⟩ [] =
        Except.ok ⟨false, Mode.comment, out ++ ([] : Str) ++ ['\n'], media⟩ := rfl
    rw [e]
    simp
  · have e : step fs ⟨true, Mode.comment, out, media⟩ [] =
        Except.ok ⟨true, Mode.comment, out ++ ([] : Str) ++ ['\n'], media⟩ := rfl
    rw [e]
    simp

/-- C7 witness: a concrete state in comment mode. -/
theorem c7_witness :
    (initState false).lastLine = Mode.neither ∧
    ({ initState false with lastLine := Mode.comment } : CState).lastLine = Mode.comment ∧
    step fsNone { initState false with lastLine := Mode.comment } [] =
      Except.ok { initState false with lastLine := Mode.comment, out := ['\n'] } :=
  ⟨rfl, rfl, c7_theorem fsNone { initState false with lastLine := Mode.comment } rfl⟩

/-- C8 (confirmed): a directive line contributes nothing to the conversion:
removing it from the line sequence leaves the run of the conversion loop
unchanged (same output, same media, same state, same error behaviour),
and the step on it returns the state untouched. -/
theorem c8_theorem (fs : Str → Option Str) (st : CState) (pre : List Str)
    (d : Str) (post : List Str) (h : isDirective d = true) :
    runLines fs st (pre ++ d :: post) = runLines fs st (pre ++ post) := by
  induction pre generalizing st with
  | nil =>
    simp only [List.nil_append, runLines, step_directive fs st d h]
  | cons l pre ih =>
    simp only [List.cons_append, runLines]
    cases hs : step fs st l with
    | error e => rfl
    | ok st2 => exact ih st2

/-- C8 witness: the directive line from the specification, inserted before
a code line. -/
theorem c8_witness :
    isDirective (litStr "//go:generate foo") = true ∧
    runLines fsNone (initState false) ([] ++ litStr "//go:generate foo" :: [litStr "x"]) =
      runLines fsNone (initState false) ([] ++ [litStr "x"]) :=
  ⟨rfl, c8_theorem fsNone (initState false) [] (litStr "//go:generate foo") [litStr "x"] rfl⟩

/-- C9 (confirmed): converting the line-comment made of the delimiter,
one or more spaces and the word `text` strips the delimiter and exactly
one following space: with `n + 1` spaces after the delimiter, the output
is `n` spaces followed by `text` and a newline, so extra leading spaces
beyond the first are preserved. -/
theorem c9_theorem (fs : Str → Option Str) (n : Nat) :
    convert fs (litStr "//" ++ List.replicate (n + 1) ' ' ++ litStr "text") =
      Except.ok (List.replicate n ' ' ++ litStr "text" ++ ['\n'], []) := by
  have einput : litStr "//" ++ List.replicate (n + 1) ' ' ++ litStr "text"
      = '/' :: '/' :: ' ' :: (List.replicate n ' ' ++ litStr "text") := by
    rw [show litStr "//" = ['/', '/'] from rfl, List.replicate_succ]
    simp
  rw [einput]
  have hcharsT : ∀ c ∈ (List.replicate n ' ' ++ litStr "text" : Str),
      c = ' ' ∨ c = 't' ∨ c = 'e' ∨ c = 'x' := by
    intro c hc
    rcases List.mem_append.mp hc with h | h
    · exact Or.inl (List.eq_of_mem_replicate h)
    · rw [show litStr "text" = ['t', 'e', 'x', 't'] from rfl] at h
      simp only [List.mem_cons, List.not_mem_nil, or_false] at h
      rcases h with rfl | rfl | rfl | rfl <;> simp
  have hcharsL : ∀ c ∈ ('/' :: '/' :: ' ' :: (List.replicate n ' ' ++ litStr "text") : Str),
      c = '/' ∨ c = ' ' ∨ c = 't' ∨ c = 'e' ∨ c = 'x' := by
    intro c hc
    rcases List.mem_cons.mp hc with rfl | hc
    · exact Or.inl rfl
    rcases List.mem_cons.mp hc with rfl | hc
    · exact Or.inl rfl
    rcases List.mem_cons.mp hc with rfl | hc
    · exact Or.inr (Or.inl rfl)
    · exact Or.inr (hcharsT c hc)
  have hNoCr : ∀ c ∈ ('/' :: '/' :: ' ' :: (List.replicate n ' ' ++ litStr "text") : Str),
      c ≠ '\r' := by
    intro c hc
    rcases hcharsL c hc with rfl | rfl | rfl | rfl | rfl <;> decide
  have hNoNl : ∀ c ∈ ('/' :: '/' :: ' ' :: (List.replicate n ' ' ++ litStr "text") : Str),
      c ≠ '\n' := by
    intro c hc
    rcases hcharsL c hc with rfl | rfl | rfl | rfl | rfl <;> decide
  have hNoBang : ∀ c ∈ ('/' :: '/' :: ' ' :: (List.replicate n ' ' ++ litStr "text") : Str),
      (c == '!') = false := by
    intro c hc
    rcases hcharsL c hc with rfl | rfl | rfl | rfl | rfl <;> decide
  have hNoH : ∀ c ∈ ('/' :: '/' :: ' ' :: (List.replicate n ' ' ++ litStr "text") : Str),
      (c == 'H') = false := by
    intro c hc
    rcases hcharsL c hc with rfl | rfl | rfl | rfl | rfl <;> decide
  have hNoStarT : ∀ c ∈ (List.replicate n ' ' ++ litStr "text" : Str),
      (c == '*') = false := by
    intro c hc
    rcases hcharsT c hc with rfl | rfl | rfl | rfl <;> decide
  have hdir : isDirective ('/' :: '/' :: ' ' :: (List.replicate n ' ' ++ litStr "text")) =
      false := by
    unfold isDirective
    rw [show litStr "//go:" = ['/', '/', 'g', 'o', ':'] from rfl]
    simp only [List.isPrefixOf_cons₂]
    rw [show (('g' : Char) == ' ') = false from rfl]
    simp
  have hcmt : matchesComment ('/' :: '/' :: ' ' :: (List.replicate n ' ' ++ litStr "text")) =
      true := rfl
  have hcf : commentFinderStep false
      ('/' :: '/' :: ' ' :: (List.replicate n ' ' ++ litStr "text")) = (true, false) := by
    simp [commentFinderStep, hcmt]
  have himg : extractMediaPath ('/' :: '/' :: ' ' :: (List.replicate n ' ' ++ litStr "text")) =
      Except.ok [] := by
    have h1 := findSubmatch_image_none _ hNoBang
    unfold extractMediaPath findStringSubmatch
    rw [h1]
    rfl
  have hhyp : replaceHypeTag fs ('/' :: '/' :: ' ' :: (List.replicate n ' ' ++ litStr "text")) =
      Except.ok (('/' :: '/' :: ' ' :: (List.replicate n ' ' ++ litStr "text") : Str), []) := by
    have h1 := findSubmatch_hype_none _ hNoH
    unfold replaceHypeTag findStringSubmatch
    rw [h1]
    rfl
  have hstrip : stripDelims ('/' :: '/' :: ' ' :: (List.replicate n ' ' ++ litStr "text")) =
      List.replicate n ' ' ++ litStr "text" := by
    have hp1 : (litStr "//").isPrefixOf
        (('/' :: '/' :: ' ' :: (List.replicate n ' ' ++ litStr "text") : Str).dropWhile
          isGoSpace) = true := rfl
    simp only [stripDelims, hp1, if_true]
    exact stripEnd_no_star _ hNoStarT
  have hstep : step fs ⟨false, Mode.neither, [], []⟩
      ('/' :: '/' :: ' ' :: (List.replicate n ' ' ++ litStr "text")) =
      Except.ok ⟨false, Mode.comment,
        stripDelims ('/' :: '/' :: ' ' :: (List.replicate n ' ' ++ litStr "text")) ++ ['\n'],
        []⟩ := by
    simp only [step, hdir, Bool.false_eq_true, if_false]
    rw [hcf, himg, hhyp]
    simp
  unfold convert convertFrom
  rw [stripCR_no_cr _ hNoCr, splitLines_no_nl _ hNoNl]
  unfold runLines
  rw [hstep]
  unfold runLines
  rw [hstrip]
  simp

/-- C10 (confirmed): extractMediaPath never returns an error: the
malformed-tag branch (a submatch list of length exactly one) is
unreachable, because a successful match of the image pattern always
produces the full match together with the captured path. -/
theorem c10_theorem (line : Str) : ∃ p, extractMediaPath line = Except.ok p := by
  cases h : findSubmatch imagePat line with
  | none => exact ⟨[], by simp [extractMediaPath, findStringSubmatch, h]⟩
  | some wc =>
    exact ⟨trimCutset spaceTabCut ([wc.1, wc.2].getD 1 []),
      by simp [extractMediaPath, findStringSubmatch, h]⟩

/-- C1 counterexample: an input with no comment lines is not wrapped in a
code fence pair at all: converting the single code line `x` returns it
verbatim with a trailing newline and no fence marker anywhere, and the
empty input yields a lone newline without any closing fence. -/
theorem c1_counterexample :
    convert fsNone (litStr "x") = Except.ok (litStr "x\n", []) ∧
    containsSub (litStr "```") (litStr "x\n") = false ∧
    convert fsNone [] = Except.ok (['\n'], []) ∧
    containsSub (litStr "```") ['\n'] = false :=
  ⟨rfl, rfl, rfl, rfl⟩

/-- C1 (corrected): for every input text all of whose lines are
classified CodeLine under a fresh classifier (and none of which is a
directive), convert returns the input itself (carriage returns removed)
with one trailing newline appended and an empty media set: no code fence
is emitted at all, because the fence logic only triggers after a comment
line — in particular no closing fence is emitted for the empty input. -/
theorem c1_theorem (fs : Str → Option Str) (input : Str)
    (h : ∀ l ∈ splitLines (stripCR input),
      isDirective l = false ∧ commentFinderStep false l = (false, false)) :
    convert fs input = Except.ok (stripCR input ++ ['\n'], []) := by
  unfold convert convertFrom
  rw [runLines_all_code fs (splitLines (stripCR input)) h [] []]
  simp [join_map_splitLines]

/-- C1 witness: a two-line input of plain code lines. -/
theorem c1_witness :
    (∀ l ∈ splitLines (stripCR (litStr "a\nb")),
      isDirective l = false ∧ commentFinderStep false l = (false, false)) ∧
    convert fsNone (litStr "a\nb") = Except.ok (stripCR (litStr "a\nb") ++ ['\n'], []) :=
  ⟨by decide, c1_theorem fsNone (litStr "a\nb") (by decide)⟩

/-- C2 counterexample: classifier scan state is shared between
conversions: after converting `/*` (which leaves the flag set), the line
` ![a](p.png)` is classified as a comment and its image path is
collected, while a fresh conversion of the same line treats it as code
and collects nothing. -/
theorem c2_counterexample :
    convertFrom fsNone false (litStr "/*") = Except.ok (litStr "\n", [], true) ∧
    convertFrom fsNone true (litStr " ![a](p.png)") =
      Except.ok (litStr " ![a](p.png)\n", [litStr "p.png"], true) ∧
    convertFrom fsNone false (litStr " ![a](p.png)") =
      Except.ok (litStr " ![a](p.png)\n", [], false) ∧
    [litStr "p.png"] ≠ ([] : List Str) :=
  ⟨rfl, rfl, rfl, by simp⟩

/-- C2 (corrected): the classifier flag is the only state carried from
one conversion into the next; converting B after A equals a fresh
conversion of B whenever A leaves the flag cleared, which holds in
particular when no line of A matches the block-comment opener pattern.
Re-initialization per document does not occur in general (see the
counterexample). -/
theorem c2_theorem (fs : Str → Option Str) (A B : Str) (r : Str × List Str × Bool)
    (hA : ∀ l ∈ splitLines (stripCR A), matchesCommentStart l = false)
    (hr : convertFrom fs false A = Except.ok r) :
    convertFrom fs r.2.2 B = convertFrom fs false B := by
  have hcls : r.2.2 = false := by
    unfold convertFrom at hr
    cases hrun : runLines fs ⟨false, Mode.neither, [], []⟩ (splitLines (stripCR A)) with
    | error e => rw [hrun] at hr; simp at hr
    | ok st =>
      rw [hrun] at hr
      simp only [Except.ok.injEq] at hr
      have hst : st.cls = false := runLines_cls_false fs _ hA _ st rfl hrun
      rw [← hr]
      exact hst
  rw [hcls]

/-- C2 witness: after a purely line-comment document, a following
conversion behaves as a fresh one. -/
theorem c2_witness :
    (∀ l ∈ splitLines (stripCR (litStr "// a")), matchesCommentStart l = false) ∧
    convertFrom fsNone false (litStr "// a") = Except.ok (litStr "a\n", [], false) ∧
    convertFrom fsNone ((litStr "a\n", ([] : List Str), false) : Str × List Str × Bool).2.2
        (litStr "x") = convertFrom fsNone false (litStr "x") :=
  ⟨by decide, rfl,
    c2_theorem fsNone (litStr "// a") (litStr "x") (litStr "a\n", [], false) (by decide) rfl⟩

/-- C3 counterexample: a hype-tag path is inserted into the media set
untrimmed: the comment line `// HYPE[d](p )` puts the path `p ` (with a
trailing space) into the media set. -/
theorem c3_counterexample :
    convert fsP (litStr "// HYPE[d](p )") = Except.ok (litStr "\n", [litStr "p "]) ∧
    trimCutset spaceTabCut (litStr "p ") ≠ litStr "p " :=
  ⟨rfl, by decide⟩

/-- C3 (corrected): for every file system, starting flag and input text,
every successful conversion returns a media set with no duplicate
entries and no empty string; image-tag paths are furthermore inserted
trimmed of spaces and tabs, but hype-tag paths are inserted as captured
and may keep leading or trailing whitespace (see the counterexample). -/
theorem c3_theorem (fs : Str → Option Str) (cls0 : Bool) (input out : Str)
    (media : List Str) (cls2 : Bool)
    (h : convertFrom fs cls0 input = Except.ok (out, media, cls2)) :
    media.Nodup ∧ ∀ p ∈ media, p ≠ [] := by
  unfold convertFrom at h
  cases hrun : runLines fs ⟨cls0, Mode.neither, [], []⟩ (splitLines (stripCR input)) with
  | error e =>
    rw [hrun] at h
    simp at h
  | ok st =>
    rw [hrun] at h
    simp only [Except.ok.injEq, Prod.mk.injEq] at h
    obtain ⟨-, hm, -⟩ := h
    subst hm
    exact runLines_media_inv fs _ _ st hrun List.nodup_nil (by simp)

/-- C3 witness: a conversion whose media set holds one image path. -/
theorem c3_witness :
    convertFrom fsNone false (litStr "// ![a](q.png)") =
      Except.ok (litStr "![a](q.png)\n", [litStr "q.png"], false) ∧
    ([litStr "q.png"].Nodup ∧ ∀ p ∈ [litStr "q.png"], p ≠ []) :=
  ⟨rfl, c3_theorem fsNone false (litStr "// ![a](q.png)") (litStr "![a](q.png)\n")
    [litStr "q.png"] false rfl⟩

/-- C4 counterexample: the emitted text does contain the literal image
tag: converting `// ![alt](pic.png "t")` collects `pic.png` but keeps
the whole tag in the output, stripping only the comment delimiter. -/
theorem c4_counterexample :
    convert fsNone (litStr "// ![alt](pic.png \"t\")") =
      Except.ok (litStr "![alt](pic.png \"t\")\n", [litStr "pic.png"]) ∧
    containsSub (litStr "![alt](pic.png \"t\")") (litStr "![alt](pic.png \"t\")\n") = true :=
  ⟨rfl, rfl⟩

/-- C4 (corrected): converting the single comment line
`// ![alt](pic.png "t")` yields the media set holding exactly `pic.png`,
and the emitted text is the line with the comment delimiter stripped and
the image tag kept verbatim, whatever the file system. -/
theorem c4_theorem (fs : Str → Option Str) :
    convert fs (litStr "// ![alt](pic.png \"t\")") =
      Except.ok (litStr "![alt](pic.png \"t\")\n", [litStr "pic.png"]) :=
  rfl

/-- C6 (corrected): for every readable file, the snippet loader returns
exactly the lines after the first start-marker line, up to (and
excluding) the first subsequent line holding the end marker alone (a
line holding both markers is treated as a start-marker line: excluded
without stopping the scan), each trimmed of tab characters on both ends
(not only the right) and followed by a newline, with one extra newline
appended; the scan never resumes after that stopping line. -/
theorem c6_theorem (fs : Str → Option Str) (path content : Str)
    (h : fs path = some content) :
    getHTMLSnippet fs path = Except.ok (snippetSpec content) := by
  simp only [getHTMLSnippet, h, snippetLoop_false, snippetLoop_true, snippetSpec]

/-- C6 witness: the one-region hype export file `contentC6`. -/
theorem c6_witness :
    fsC6 (litStr "f") = some contentC6 ∧
    getHTMLSnippet fsC6 (litStr "f") = Except.ok (snippetSpec contentC6) :=
  ⟨rfl, c6_theorem fsC6 (litStr "f") contentC6 rfl⟩

/-- C6 counterexample: a snippet line is trimmed of tabs on both ends,
not only on the right: the snippet line tab-`a`-tab is accumulated as
`a`, where the specification's right-only trimming would keep the
leading tab. -/
theorem c6_counterexample :
    getHTMLSnippet fsC6 (litStr "f") = Except.ok (litStr "a\n\n") ∧
    rdropTabs (litStr "\ta\t") ++ litStr "\n\n" = litStr "\ta\n\n" ∧
    litStr "a\n\n" ≠ litStr "\ta\n\n" :=
  ⟨rfl, rfl, by decide⟩

end GoMD
